import Mathlib

/-!
Shallow embedding of the roulette-prediction program (files `physics.py` and
`vision.py`).  Python floats are modelled as real numbers (exact arithmetic,
`math.pi` becomes `Real.pi`); Python `None`-returning functions become
`Option`-valued functions; the bounded simulation `while` loop becomes a
fuel-indexed recursion whose fuel is exactly the number of iterations the
loop can perform (see `simLoop` and `simFuel`).
-/

open Real

namespace RoulettePhysics

/-- State of the roulette system (`physics.py`, class `RouletteState`):
ball position `(angle, radius)` in polar coordinates, ball velocity
`(angular_velocity, radial_velocity)`, wheel angular velocity, and time. -/
structure RouletteState where
  ball_position : ℝ × ℝ
  ball_velocity : ℝ × ℝ
  wheel_velocity : ℝ
  time : ℝ

/-- `self.gravity = 9.81`. -/
noncomputable def gravity : ℝ := 9.81

/-- `self.friction_coefficient = 0.02`. -/
noncomputable def friction_coefficient : ℝ := 0.02

/-- `self.air_resistance = 0.001`. -/
noncomputable def air_resistance : ℝ := 0.001

/-- `self.ball_mass = 0.005`. -/
noncomputable def ball_mass : ℝ := 0.005

/-- `self.pixels_per_meter = 300`. -/
noncomputable def pixels_per_meter : ℝ := 300

/-- European roulette numbers in wheel order (`self.wheel_numbers`). -/
def wheel_numbers : List ℕ :=
  [0, 32, 15, 19, 4, 21, 2, 25, 17, 34, 6, 27, 13, 36, 11, 30, 8, 23, 10, 5,
   24, 16, 33, 1, 20, 14, 31, 9, 22, 18, 29, 7, 28, 12, 35, 3, 26]

/-- Python `int()` applied to a float: truncation toward zero. -/
noncomputable def pyInt (x : ℝ) : ℤ := if 0 ≤ x then ⌊x⌋ else -⌊-x⌋

/-- Closed form of the two normalisation loops in `predict_landing_position`
(`while relative_angle < 0: += 2π` then `while relative_angle >= 2π: -= 2π`):
for every real `x` the loops terminate with `x - 2π·⌊x/(2π)⌋ ∈ [0, 2π)`. -/
noncomputable def normalize_2pi (x : ℝ) : ℝ := x - 2 * π * ⌊x / (2 * π)⌋

/-- Closed form of the two normalisation loops in `simulate_trajectory`
(`while new_angle > π: -= 2π` then `while new_angle < -π: += 2π`): the first
loop subtracts `2π` exactly `⌈(x-π)/(2π)⌉` times, the second adds `2π`
exactly `⌈(-π-x)/(2π)⌉` times, and at most one of the two loops runs. -/
noncomputable def normalize_pi (x : ℝ) : ℝ :=
  if π < x then x - 2 * π * ⌈(x - π) / (2 * π)⌉
  else if x < -π then x + 2 * π * ⌈(-π - x) / (2 * π)⌉
  else x

/-- `pixel_coords_to_polar` needs `math.atan2`; the standard two-argument
arctangent, case-split exactly as the C/Python library function. -/
noncomputable def atan2 (y x : ℝ) : ℝ :=
  if 0 < x then Real.arctan (y / x)
  else if x < 0 ∧ 0 ≤ y then Real.arctan (y / x) + π
  else if x < 0 ∧ y < 0 then Real.arctan (y / x) - π
  else if x = 0 ∧ 0 < y then π / 2
  else if x = 0 ∧ y < 0 then -(π / 2)
  else 0

/-- `RoulettePhysics.pixel_coords_to_polar`: convert pixel coordinates to
polar `(angle, radius)` about `center`, dividing the pixel distance by
`pixels_per_meter`. -/
noncomputable def pixel_coords_to_polar (x y : ℤ) (center : ℤ × ℤ) : ℝ × ℝ :=
  let dx : ℝ := (x : ℝ) - (center.1 : ℝ)
  let dy : ℝ := (y : ℝ) - (center.2 : ℝ)
  (atan2 dy dx, Real.sqrt (dx * dx + dy * dy) / pixels_per_meter)

/-- The wraparound correction applied to one successive angle difference in
`calculate_angular_velocity` (`if angle_diff > π: -= 2π elif < -π: += 2π`). -/
noncomputable def wrapCorrect (d : ℝ) : ℝ :=
  if π < d then d - 2 * π else if d < -π then d + 2 * π else d

/-- The list `angle_diffs` built by `calculate_angular_velocity`: wraparound
corrected differences of the angles of successive positions. -/
noncomputable def angleDiffs : List (ℝ × ℝ) → List ℝ
  | [] => []
  | [_] => []
  | p :: q :: rest => wrapCorrect (q.1 - p.1) :: angleDiffs (q :: rest)

/-- `RoulettePhysics.calculate_angular_velocity`: `None` for fewer than two
positions, otherwise the sum of the corrected angle differences divided by
`len(angle_diffs) * time_interval`. -/
noncomputable def calculate_angular_velocity (positions : List (ℝ × ℝ))
    (time_interval : ℝ) : Option ℝ :=
  if positions.length < 2 then none
  else some ((angleDiffs positions).sum /
    (((angleDiffs positions).length : ℝ) * time_interval))

/-- The list `radius_diffs` built by `calculate_radial_velocity`: raw
differences of the radii of successive positions. -/
noncomputable def radiusDiffs : List (ℝ × ℝ) → List ℝ
  | [] => []
  | [_] => []
  | p :: q :: rest => (q.2 - p.2) :: radiusDiffs (q :: rest)

/-- `RoulettePhysics.calculate_radial_velocity`: `None` for fewer than two
positions, otherwise the average radius difference divided by the time. -/
noncomputable def calculate_radial_velocity (positions : List (ℝ × ℝ))
    (time_interval : ℝ) : Option ℝ :=
  if positions.length < 2 then none
  else some ((radiusDiffs positions).sum /
    (((radiusDiffs positions).length : ℝ) * time_interval))

/-- `wheel_deceleration = 0.01` inside the simulation loop. -/
noncomputable def wheel_deceleration : ℝ := 0.01

/-- One iteration of the simulation `while` loop in `simulate_trajectory`
(`physics.py` lines 117-164): force computation, Euler integration of
angular and radial velocity, angle normalisation into `[-π, π]`, the hard
radius floor `max(0.05, …)`, and wheel slow-down `max(0, …)`. -/
noncomputable def simStep (cur : RouletteState) (dt : ℝ) : RouletteState :=
  let angle := cur.ball_position.1
  let radius := cur.ball_position.2
  let angular_vel := cur.ball_velocity.1
  let radial_vel := cur.ball_velocity.2
  let centrifugal_force := ball_mass * angular_vel * angular_vel * radius
  let friction_force := friction_coefficient * ball_mass * gravity
  let air_resistance_angular := air_resistance * angular_vel * |angular_vel|
  let air_resistance_radial := air_resistance * radial_vel * |radial_vel|
  let angular_acceleration :=
    -friction_force / (ball_mass * radius) - air_resistance_angular / ball_mass
  let new_angular_vel := angular_vel + angular_acceleration * dt
  let radial_acceleration :=
    centrifugal_force / ball_mass - air_resistance_radial / ball_mass
      + (-0.1 * gravity)
  let new_radial_vel := radial_vel + radial_acceleration * dt
  let new_angle := normalize_pi (angle + new_angular_vel * dt)
  let new_radius := max 0.05 (radius + new_radial_vel * dt)
  let new_wheel_vel := max 0 (cur.wheel_velocity - wheel_deceleration * dt)
  { ball_position := (new_angle, new_radius),
    ball_velocity := (new_angular_vel, new_radial_vel),
    wheel_velocity := new_wheel_vel,
    time := cur.time + dt }

/-- The early-exit test of the simulation loop: the ball has essentially
stopped (`abs(new_angular_vel) < 0.1 and abs(new_radial_vel) < 0.01`). -/
def simStop (s : RouletteState) : Prop :=
  |s.ball_velocity.1| < 0.1 ∧ |s.ball_velocity.2| < 0.01

noncomputable instance : DecidablePred simStop := fun _ =>
  instDecidableAnd

/-- Fuel-indexed form of the simulation `while` loop: as long as
`cur.time < tEnd`, append `simStep cur dt` and continue (or break once the
ball has settled).  The states produced after the initial one. -/
noncomputable def simLoop (dt tEnd : ℝ) : ℕ → RouletteState → List RouletteState
  | 0, _ => []
  | n + 1, cur =>
    if cur.time < tEnd then
      let ns := simStep cur dt
      if simStop ns then [ns] else ns :: simLoop dt tEnd n ns
    else []

/-- Number of iterations the Python loop can perform for `0 < dt`: the guard
at entry `k` is `initial_time + k·dt < initial_time + simulation_time`, i.e.
`k < simulation_time/dt`, so the loop body runs at most
`⌈simulation_time/dt⌉` times (fewer if the early exit fires).  With this
fuel, `simLoop` computes exactly the Python loop (see
`simLoop_fuel_irrelevant`). -/
noncomputable def simFuel (simulation_time dt : ℝ) : ℕ :=
  (⌈simulation_time / dt⌉).toNat

/-- `RoulettePhysics.simulate_trajectory`: the initial state followed by the
states produced by the simulation loop. -/
noncomputable def simulate_trajectory (initial_state : RouletteState)
    (simulation_time dt : ℝ) : List RouletteState :=
  initial_state ::
    simLoop dt (initial_state.time + simulation_time)
      (simFuel simulation_time dt) initial_state

/-- `RoulettePhysics.predict_landing_position`: `(0.0, 0)` on an empty
trajectory; otherwise subtract the wheel rotation
`trajectory[0].wheel_velocity * (final.time - trajectory[0].time)` from the
final ball angle, normalise into `[0, 2π)`, and look the truncated segment
index (mod 37) up in `wheel_numbers`. -/
noncomputable def predict_landing_position (trajectory : List RouletteState) :
    ℝ × ℕ :=
  match trajectory with
  | [] => (0.0, 0)
  | t0 :: rest =>
    let final_state := (t0 :: rest).getLast (List.cons_ne_nil t0 rest)
    let final_angle := final_state.ball_position.1
    let time_traveled := final_state.time - t0.time
    let wheel_rotation := t0.wheel_velocity * time_traveled
    let relative_angle := normalize_2pi (final_angle - wheel_rotation)
    let segment_angle := 2 * π / 37
    let segment_index := (pyInt (relative_angle / segment_angle) % 37).toNat
    (relative_angle, wheel_numbers.getD segment_index 0)

/-- `np.var` on a list of floats: population variance, the mean of the
squared deviations from the mean. -/
noncomputable def npVar (l : List ℝ) : ℝ :=
  (l.map (fun v => (v - l.sum / (l.length : ℝ)) ^ 2)).sum / (l.length : ℝ)

/-- `RoulettePhysics.get_prediction_confidence`: `0.1` for trajectories of
fewer than 10 states, otherwise `max(0.1, min(1.0, 1.0 - variance/10))` of
the angular velocities of the first 10 states. -/
noncomputable def get_prediction_confidence (trajectory : List RouletteState) :
    ℝ :=
  if trajectory.length < 10 then 0.1
  else
    let angular_velocities := (trajectory.take 10).map fun s => s.ball_velocity.1
    max 0.1 (min 1.0 (1.0 - npVar angular_velocities / 10.0))

/-- `RoulettePhysics.create_state_from_vision`: `None` on fewer than two
pixel positions; otherwise convert all positions to polar coordinates,
compute both velocities, and build a state at time `0.0` from the most
recent polar position (`polar_positions[-1]`), the velocities, and the
supplied wheel angular velocity.  The `None` check on the two velocities is
kept exactly as in the source. -/
noncomputable def create_state_from_vision (ball_positions : List (ℤ × ℤ))
    (wheel_center : ℤ × ℤ) (time_interval : ℝ)
    (wheel_angular_velocity : ℝ) : Option RouletteState :=
  if ball_positions.length < 2 then none
  else
    let polar_positions :=
      ball_positions.map fun p => pixel_coords_to_polar p.1 p.2 wheel_center
    match calculate_angular_velocity polar_positions time_interval,
        calculate_radial_velocity polar_positions time_interval with
    | some angular_vel, some radial_vel =>
      some { ball_position := polar_positions.getLastD (0, 0),
             ball_velocity := (angular_vel, radial_vel),
             wheel_velocity := wheel_angular_velocity,
             time := 0.0 }
    | _, _ => none

end RoulettePhysics

namespace RouletteVision

/-- The ball-history cap in `RouletteVision.detect_ball`
(`if len(self.ball_history) > 15: self.ball_history.pop(0)`). -/
def historyCap : ℕ := 15

/-- The history update performed by `RouletteVision.detect_ball`
(`vision.py` lines 289-299), with the image-processing pipeline that selects
the ball candidate abstracted into the `found` argument: when a candidate
position was found the method appends it to `ball_history`, pops the oldest
entry if the history now exceeds 15, and returns the position; when no
candidate was found it returns `None` and leaves the history untouched. -/
def detectBallUpdate (ball_history : List (ℤ × ℤ)) (found : Option (ℤ × ℤ)) :
    Option (ℤ × ℤ) × List (ℤ × ℤ) :=
  match found with
  | none => (none, ball_history)
  | some ball_pos =>
    let h := ball_history ++ [ball_pos]
    (some ball_pos, if historyCap < h.length then h.tail else h)

/-- Running a whole sequence of `detect_ball` outcomes against the history,
which starts empty (`self.ball_history = []` in `__init__`). -/
def runDetections (ops : List (Option (ℤ × ℤ))) : List (ℤ × ℤ) :=
  ops.foldl (fun h o => (detectBallUpdate h o).2) []

end RouletteVision

namespace RoulettePhysics

/-- A state whose radius is below the simulation floor, used to exercise the
first element of a simulated trajectory. -/
noncomputable def lowState : RouletteState :=
  { ball_position := (0, 0.01), ball_velocity := (0, 0),
    wheel_velocity := 0, time := 0 }

theorem simStep_time (cur : RouletteState) (dt : ℝ) :
    (simStep cur dt).time = cur.time + dt := rfl

theorem simStep_radius (cur : RouletteState) (dt : ℝ) :
    (0.05 : ℝ) ≤ (simStep cur dt).ball_position.2 :=
  le_max_left _ _

theorem simLoop_length_le (dt tEnd : ℝ) :
    ∀ (n : ℕ) (cur : RouletteState), (simLoop dt tEnd n cur).length ≤ n
  | 0, _ => le_rfl
  | n + 1, cur => by
    rw [simLoop]
    split
    · dsimp only
      split
      · simp
      · simpa using Nat.succ_le_succ (simLoop_length_le dt tEnd n _)
    · simp

theorem simLoop_radius (dt tEnd : ℝ) :
    ∀ (n : ℕ) (cur : RouletteState), ∀ s ∈ simLoop dt tEnd n cur,
      (0.05 : ℝ) ≤ s.ball_position.2
  | 0, _ => by simp [simLoop]
  | n + 1, cur => by
    intro s hs
    rw [simLoop] at hs
    split at hs
    · dsimp only at hs
      split at hs
      · rw [List.mem_singleton] at hs
        exact hs ▸ simStep_radius cur dt
      · rcases List.mem_cons.mp hs with rfl | hs
        · exact simStep_radius cur dt
        · exact simLoop_radius dt tEnd n _ s hs
    · simp at hs

theorem simLoop_one (dt tEnd : ℝ) (cur : RouletteState)
    (h : cur.time < tEnd) : simLoop dt tEnd 1 cur = [simStep cur dt] := by
  rw [simLoop, if_pos h]
  dsimp only
  split <;> simp [simLoop]

/-- `simLoop` with fuel `n + 1` equals `simLoop` with fuel `n` as soon as
`n` covers the remaining simulated time: the fuel in `simFuel` is not a
semantic truncation of the Python `while` loop. -/
theorem simLoop_succ_eq (dt tEnd : ℝ) (hdt : 0 < dt) :
    ∀ (n : ℕ) (cur : RouletteState), tEnd - cur.time ≤ (n : ℝ) * dt →
      simLoop dt tEnd (n + 1) cur = simLoop dt tEnd n cur
  | 0, cur, h => by
    have hg : ¬ cur.time < tEnd := by
      simp only [Nat.cast_zero, zero_mul] at h
      linarith
    show simLoop dt tEnd (0 + 1) cur = simLoop dt tEnd 0 cur
    rw [simLoop, simLoop, if_neg hg]
  | n + 1, cur, h => by
    by_cases hg : cur.time < tEnd
    · rw [simLoop, if_pos hg]
      conv_rhs => rw [simLoop, if_pos hg]
      by_cases hstop : simStop (simStep cur dt)
      · simp [hstop]
      · have hrec : tEnd - (simStep cur dt).time ≤ (n : ℝ) * dt := by
          rw [simStep_time]
          push_cast at h ⊢
          linarith
        simp only [hstop, if_false]
        rw [simLoop_succ_eq dt tEnd hdt n _ hrec]
    · rw [simLoop, if_neg hg, simLoop, if_neg hg]

/-- Any fuel at least `⌈(tEnd - cur.time)/dt⌉` produces the same list, so
`simLoop` with the fuel from `simFuel` is exactly the source's loop. -/
theorem simLoop_fuel_irrelevant (dt tEnd : ℝ) (hdt : 0 < dt)
    (n m : ℕ) (cur : RouletteState)
    (hn : tEnd - cur.time ≤ (n : ℝ) * dt)
    (hm : tEnd - cur.time ≤ (m : ℝ) * dt) :
    simLoop dt tEnd n cur = simLoop dt tEnd m cur := by
  have key : ∀ (k j : ℕ) (c : RouletteState), tEnd - c.time ≤ (j : ℝ) * dt →
      simLoop dt tEnd (j + k) c = simLoop dt tEnd j c := by
    intro k
    induction k with
    | zero => intro j c _; rfl
    | succ k ih =>
      intro j c hc
      have hs : tEnd - c.time ≤ ((j + k : ℕ) : ℝ) * dt := by
        push_cast
        nlinarith [hdt.le, (Nat.cast_nonneg k : (0:ℝ) ≤ (k : ℕ))]
      calc simLoop dt tEnd (j + (k + 1)) c
          = simLoop dt tEnd ((j + k) + 1) c := by ring_nf
        _ = simLoop dt tEnd (j + k) c := simLoop_succ_eq dt tEnd hdt _ c hs
        _ = simLoop dt tEnd j c := ih j c hc
  rcases Nat.le_total n m with hle | hle
  · obtain ⟨k, rfl⟩ := Nat.exists_eq_add_of_le hle
    exact (key k n cur hn).symm
  · obtain ⟨k, rfl⟩ := Nat.exists_eq_add_of_le hle
    exact key k m cur hm

/-- The fuel chosen in `simulate_trajectory` covers the whole simulated
time span. -/
theorem simFuel_sufficient (T dt : ℝ) (hdt : 0 < dt) :
    T ≤ ((simFuel T dt : ℕ) : ℝ) * dt := by
  rcases le_or_lt T 0 with hT | hT
  · have : (0:ℝ) ≤ ((simFuel T dt : ℕ) : ℝ) * dt :=
      mul_nonneg (Nat.cast_nonneg _) hdt.le
    linarith
  · have hceil : (0:ℤ) ≤ ⌈T / dt⌉ :=
      Int.ceil_nonneg (le_of_lt (div_pos hT hdt))
    have hcast : ((simFuel T dt : ℕ) : ℝ) = ((⌈T / dt⌉ : ℤ) : ℝ) := by
      simp only [simFuel]
      exact_mod_cast congrArg (fun z : ℤ => (z : ℝ))
        (Int.toNat_of_nonneg hceil)
    rw [hcast]
    have h1 : T / dt ≤ ((⌈T / dt⌉ : ℤ) : ℝ) := Int.le_ceil _
    calc T = T / dt * dt := by field_simp
      _ ≤ ((⌈T / dt⌉ : ℤ) : ℝ) * dt := by
          exact mul_le_mul_of_nonneg_right h1 hdt.le

end RoulettePhysics

namespace RoulettePhysics

theorem normalize_2pi_nonneg (x : ℝ) : 0 ≤ normalize_2pi x := by
  have hc : (0:ℝ) < 2 * π := Real.two_pi_pos
  have h1 : ((⌊x / (2 * π)⌋ : ℤ) : ℝ) ≤ x / (2 * π) := Int.floor_le _
  have h2 : 2 * π * ((⌊x / (2 * π)⌋ : ℤ) : ℝ) ≤ x := by
    have := mul_le_mul_of_nonneg_left h1 hc.le
    calc 2 * π * ((⌊x / (2 * π)⌋ : ℤ) : ℝ)
        ≤ 2 * π * (x / (2 * π)) := this
      _ = x := by field_simp
  simp only [normalize_2pi]
  linarith

theorem normalize_2pi_lt (x : ℝ) : normalize_2pi x < 2 * π := by
  have hc : (0:ℝ) < 2 * π := Real.two_pi_pos
  have h1 : x / (2 * π) < ((⌊x / (2 * π)⌋ : ℤ) : ℝ) + 1 :=
    Int.lt_floor_add_one _
  have h2 : x < 2 * π * (((⌊x / (2 * π)⌋ : ℤ) : ℝ) + 1) := by
    have := mul_lt_mul_of_pos_left h1 hc
    calc x = 2 * π * (x / (2 * π)) := by field_simp
      _ < 2 * π * (((⌊x / (2 * π)⌋ : ℤ) : ℝ) + 1) := this
  simp only [normalize_2pi]
  nlinarith

theorem normalize_2pi_sub_int (x : ℝ) :
    ∃ k : ℤ, normalize_2pi x = x + 2 * π * (k : ℝ) :=
  ⟨-⌊x / (2 * π)⌋, by simp only [normalize_2pi]; push_cast; ring⟩

theorem pyInt_of_nonneg (x : ℝ) (h : 0 ≤ x) : pyInt x = ⌊x⌋ := if_pos h

theorem wheel_numbers_getD_le (i : ℕ) : wheel_numbers.getD i 0 ≤ 36 := by
  rcases Nat.lt_or_ge i wheel_numbers.length with h | h
  · have hall : ∀ x ∈ wheel_numbers, x ≤ 36 := by decide
    have hmem : wheel_numbers.getD i 0 ∈ wheel_numbers := by
      rw [List.getD_eq_getElem wheel_numbers 0 h]
      exact List.getElem_mem h
    exact hall _ hmem
  · rw [List.getD_eq_default wheel_numbers 0 h]
    norm_num

/-- Unfolding of `predict_landing_position` on a non-empty trajectory: the
first component is the normalised relative angle, the second the wheel
number at the truncated segment index of that angle. -/
theorem predict_landing_position_cons (t0 : RouletteState)
    (rest : List RouletteState) :
    (predict_landing_position (t0 :: rest)).1 =
      normalize_2pi
        (((t0 :: rest).getLast (List.cons_ne_nil t0 rest)).ball_position.1 -
          t0.wheel_velocity *
            (((t0 :: rest).getLast (List.cons_ne_nil t0 rest)).time -
              t0.time)) ∧
    (predict_landing_position (t0 :: rest)).2 =
      wheel_numbers.getD
        ((pyInt ((predict_landing_position (t0 :: rest)).1 / (2 * π / 37))
          % 37).toNat) 0 :=
  ⟨rfl, rfl⟩

/-- C8: `predict_landing_position` applied to an empty trajectory returns
exactly `(0.0, 0)` (and, being a total function, does not raise). -/
theorem predict_landing_position_empty :
    predict_landing_position ([] : List RouletteState) = (0.0, 0) := rfl

/-- C3: for every initial state and positive `simulation_time` and `dt`,
`simulate_trajectory` returns a non-empty list whose first element is
exactly the input initial state. -/
theorem simulate_trajectory_first (initial_state : RouletteState)
    (simulation_time dt : ℝ) (_hT : 0 < simulation_time) (_hdt : 0 < dt) :
    ∃ rest, simulate_trajectory initial_state simulation_time dt =
      initial_state :: rest :=
  ⟨_, rfl⟩

/-- Witness for C3 at the concrete state `lowState` with
`simulation_time = dt = 1`. -/
theorem simulate_trajectory_first_witness :
    (0:ℝ) < 1 ∧
      ∃ rest, simulate_trajectory lowState 1 1 = lowState :: rest :=
  ⟨one_pos, simulate_trajectory_first lowState 1 1 one_pos one_pos⟩

/-- C4: for every initial state and positive `simulation_time` and `dt`,
the trajectory has at most `⌈simulation_time/dt⌉ + 1` states. -/
theorem simulate_trajectory_length (initial_state : RouletteState)
    (simulation_time dt : ℝ) (_hT : 0 < simulation_time) (_hdt : 0 < dt) :
    (simulate_trajectory initial_state simulation_time dt).length ≤
      (⌈simulation_time / dt⌉).toNat + 1 := by
  simp only [simulate_trajectory, List.length_cons]
  exact Nat.succ_le_succ (simLoop_length_le _ _ _ _)

/-- Witness for C4 at the concrete state `lowState` with
`simulation_time = dt = 1`. -/
theorem simulate_trajectory_length_witness :
    (0:ℝ) < 1 ∧
      (simulate_trajectory lowState 1 1).length ≤ (⌈(1:ℝ) / 1⌉).toNat + 1 :=
  ⟨one_pos, simulate_trajectory_length lowState 1 1 one_pos one_pos⟩

/-- C2 counterexample: the first element of a simulated trajectory is the
unmodified initial state, so an initial radius of `0.01` appears in the
returned list below the `0.05` floor. -/
theorem simulate_trajectory_radius_counterexample :
    ¬ ∀ s ∈ simulate_trajectory lowState 1 1,
        (0.05 : ℝ) ≤ s.ball_position.2 := by
  intro h
  have h0 := h lowState (by simp [simulate_trajectory])
  norm_num [lowState] at h0

/-- C2 amended: every state of the trajectory after the first has radius at
least `0.05`; consequently, whenever the initial state's radius is at least
`0.05`, every state of the trajectory has radius at least `0.05`. -/
theorem simulate_trajectory_radius_floor (initial_state : RouletteState)
    (simulation_time dt : ℝ) (_hdt : 0 < dt) :
    (∀ s ∈ (simulate_trajectory initial_state simulation_time dt).tail,
        (0.05 : ℝ) ≤ s.ball_position.2) ∧
    ((0.05 : ℝ) ≤ initial_state.ball_position.2 →
      ∀ s ∈ simulate_trajectory initial_state simulation_time dt,
        (0.05 : ℝ) ≤ s.ball_position.2) := by
  constructor
  · intro s hs
    simp only [simulate_trajectory, List.tail_cons] at hs
    exact simLoop_radius _ _ _ _ s hs
  · intro h0 s hs
    simp only [simulate_trajectory, List.mem_cons] at hs
    rcases hs with rfl | hs
    · exact h0
    · exact simLoop_radius _ _ _ _ s hs

/-- Witness for C2's amended statement: the single post-initial state of the
trajectory from `lowState` with `simulation_time = dt = 1` has radius at
least `0.05`. -/
theorem simulate_trajectory_radius_floor_witness :
    (0:ℝ) < 1 ∧ (0.05 : ℝ) ≤ (simStep lowState 1).ball_position.2 := by
  refine ⟨one_pos, ?_⟩
  apply (simulate_trajectory_radius_floor lowState 1 1 one_pos).1
  have hfuel : simFuel 1 1 = 1 := by
    norm_num [simFuel]
  have hlt : lowState.time < lowState.time + 1 := lt_add_one _
  simp only [simulate_trajectory, List.tail_cons, hfuel]
  rw [simLoop_one 1 _ lowState hlt]
  exact List.mem_singleton.mpr rfl

/-- C1: on every trajectory, `predict_landing_position` returns a predicted
number that is the entry of the 37-element `wheel_numbers` layout at a valid
index (below 37), and that number lies in `[0, 36]`. -/
theorem predict_landing_position_valid (trajectory : List RouletteState) :
    wheel_numbers.length = 37 ∧
    ∃ i : ℕ, i < 37 ∧
      (predict_landing_position trajectory).2 = wheel_numbers.getD i 0 ∧
      (predict_landing_position trajectory).2 ≤ 36 := by
  refine ⟨rfl, ?_⟩
  cases trajectory with
  | nil => exact ⟨0, by norm_num, rfl, Nat.zero_le 36⟩
  | cons t0 rest =>
    obtain ⟨-, h2⟩ := predict_landing_position_cons t0 rest
    set m : ℤ :=
      pyInt ((predict_landing_position (t0 :: rest)).1 / (2 * π / 37))
      with hm
    refine ⟨(m % 37).toNat, ?_, h2, ?_⟩
    · have hnn : 0 ≤ m % 37 := Int.emod_nonneg m (by norm_num)
      have hlt : m % 37 < 37 := Int.emod_lt_of_pos m (by norm_num)
      omega
    · rw [h2]
      exact wheel_numbers_getD_le _

/-- C5: on every non-empty trajectory, `predict_landing_position` subtracts
`trajectory[0].wheel_velocity * (final.time - trajectory[0].time)` from the
final ball angle, returns that value normalised into `[0, 2π)` (so it
differs from the raw value by an integer multiple of `2π`), together with
the layout entry at index `⌊relative_angle / (2π/37)⌋ mod 37`. -/
theorem predict_landing_position_formula (trajectory : List RouletteState)
    (t0 fs : RouletteState) (hhead : trajectory.head? = some t0)
    (hlast : trajectory.getLast? = some fs) :
    (∃ k : ℤ, (predict_landing_position trajectory).1 =
        (fs.ball_position.1 - t0.wheel_velocity * (fs.time - t0.time))
          + 2 * π * (k : ℝ)) ∧
    0 ≤ (predict_landing_position trajectory).1 ∧
    (predict_landing_position trajectory).1 < 2 * π ∧
    (predict_landing_position trajectory).2 =
      wheel_numbers.getD
        ((⌊(predict_landing_position trajectory).1 / (2 * π / 37)⌋
          % 37).toNat) 0 := by
  cases trajectory with
  | nil => simp at hhead
  | cons h0 rest =>
    have ht0 : t0 = h0 := by
      simp only [List.head?_cons] at hhead
      exact (Option.some_injective _ hhead).symm
    subst ht0
    have hne : t0 :: rest ≠ [] := List.cons_ne_nil t0 rest
    have hfs : (t0 :: rest).getLast hne = fs := by
      rw [List.getLast?_eq_getLast _ hne] at hlast
      exact Option.some_injective _ hlast
    obtain ⟨h1, h2⟩ := predict_landing_position_cons t0 rest
    rw [hfs] at h1
    have hnonneg : 0 ≤ (predict_landing_position (t0 :: rest)).1 := by
      rw [h1]; exact normalize_2pi_nonneg _
    refine ⟨?_, hnonneg, ?_, ?_⟩
    · obtain ⟨k, hk⟩ := normalize_2pi_sub_int
        (fs.ball_position.1 - t0.wheel_velocity * (fs.time - t0.time))
      exact ⟨k, by rw [h1, hk]⟩
    · rw [h1]; exact normalize_2pi_lt _
    · rw [h2, pyInt_of_nonneg _ ?_]
      exact div_nonneg hnonneg (by positivity)

/-- Witness for C5 at the one-element trajectory `[lowState]`. -/
theorem predict_landing_position_formula_witness :
    (∃ k : ℤ, (predict_landing_position [lowState]).1 =
        (lowState.ball_position.1 -
          lowState.wheel_velocity * (lowState.time - lowState.time))
          + 2 * π * (k : ℝ)) ∧
    0 ≤ (predict_landing_position [lowState]).1 ∧
    (predict_landing_position [lowState]).1 < 2 * π ∧
    (predict_landing_position [lowState]).2 =
      wheel_numbers.getD
        ((⌊(predict_landing_position [lowState]).1 / (2 * π / 37)⌋
          % 37).toNat) 0 :=
  predict_landing_position_formula [lowState] lowState lowState rfl rfl

/-- C6: `get_prediction_confidence` is exactly `0.1` on trajectories of
fewer than 10 states, is the clamp of `1 - variance/10` into `[0.1, 1.0]`
on trajectories of at least 10 states (variance over the angular velocities
of the first 10 states), and always lies in `[0.1, 1.0]`. -/
theorem get_prediction_confidence_spec (trajectory : List RouletteState) :
    (trajectory.length < 10 → get_prediction_confidence trajectory = 0.1) ∧
    (10 ≤ trajectory.length → get_prediction_confidence trajectory =
      max 0.1 (min 1.0 (1.0 -
        npVar ((trajectory.take 10).map fun s => s.ball_velocity.1)
          / 10.0))) ∧
    0.1 ≤ get_prediction_confidence trajectory ∧
    get_prediction_confidence trajectory ≤ 1.0 := by
  unfold get_prediction_confidence
  by_cases h : trajectory.length < 10
  · rw [if_pos h]
    exact ⟨fun _ => rfl, fun h10 => absurd h10 (by omega), le_rfl,
      by norm_num⟩
  · rw [if_neg h]
    dsimp only
    refine ⟨fun h' => absurd h' h, fun _ => rfl, le_max_left _ _, ?_⟩
    exact max_le (by norm_num) (le_trans (min_le_left _ _) le_rfl)

/-- Witness for C6 at the empty trajectory. -/
theorem get_prediction_confidence_spec_witness :
    get_prediction_confidence ([] : List RouletteState) = 0.1 ∧
    0.1 ≤ get_prediction_confidence ([] : List RouletteState) :=
  ⟨(get_prediction_confidence_spec []).1 (by decide),
   (get_prediction_confidence_spec []).2.2.1⟩

/-- C7: `calculate_angular_velocity` returns `None` on fewer than two
positions; the wraparound correction moves every difference of magnitude
above `π` by `2π` toward zero; and on the wraparound pair of angles `3.0`
then `-3.0` the returned velocity has magnitude `(2π - 6)/time_interval`,
a small rotation rather than a near-`2π/time_interval` jump. -/
theorem calculate_angular_velocity_spec :
    (∀ (positions : List (ℝ × ℝ)) (time_interval : ℝ),
        positions.length < 2 →
        calculate_angular_velocity positions time_interval = none) ∧
    (∀ d : ℝ, (π < d → wrapCorrect d = d - 2 * π) ∧
        (d < -π → wrapCorrect d = d + 2 * π) ∧
        (-π ≤ d → d ≤ π → wrapCorrect d = d)) ∧
    (∀ (r1 r2 time_interval : ℝ), 0 < time_interval →
        ∃ v, calculate_angular_velocity [(3, r1), (-3, r2)] time_interval
            = some v ∧
          |v| = (2 * π - 6) / time_interval) := by
  refine ⟨fun ps ti h => if_pos h, fun d => ⟨fun h => if_pos h, ?_, ?_⟩, ?_⟩
  · intro h
    have hng : ¬ π < d := by nlinarith [Real.pi_pos]
    rw [wrapCorrect, if_neg hng, if_pos h]
  · intro h1 h2
    rw [wrapCorrect, if_neg (not_lt.mpr h2), if_neg (not_lt.mpr h1)]
  · intro r1 r2 ti hti
    have hng : ¬ π < (-6 : ℝ) := by nlinarith [Real.pi_pos]
    have hlt6 : (-6 : ℝ) < -π := by nlinarith [Real.pi_lt_d2]
    have hwc : wrapCorrect (-6) = -6 + 2 * π := by
      rw [wrapCorrect, if_neg hng, if_pos hlt6]
    have hAD : angleDiffs [((3:ℝ), r1), ((-3:ℝ), r2)] = [(-6:ℝ) + 2 * π] := by
      show [wrapCorrect ((-3 : ℝ) - 3)] = [(-6:ℝ) + 2 * π]
      rw [show ((-3 : ℝ) - 3) = -6 by norm_num, hwc]
    refine ⟨(2 * π - 6) / ti, ?_, ?_⟩
    · rw [calculate_angular_velocity, if_neg (by norm_num), hAD]
      norm_num
      ring_nf
    · have hpos : (0:ℝ) < (2 * π - 6) / ti :=
        div_pos (by nlinarith [Real.pi_gt_three]) hti
      exact abs_of_pos hpos

/-- Witness for C7: the degenerate and the wraparound instance. -/
theorem calculate_angular_velocity_spec_witness :
    calculate_angular_velocity ([] : List (ℝ × ℝ)) 1 = none ∧
    (0:ℝ) < 1 ∧
    ∃ v, calculate_angular_velocity [((3:ℝ), 0), ((-3:ℝ), 0)] 1 = some v ∧
      |v| = (2 * π - 6) / 1 :=
  ⟨calculate_angular_velocity_spec.1 [] 1 (by decide), one_pos,
   calculate_angular_velocity_spec.2.2 0 0 1 one_pos⟩

theorem map_getLastD {α β : Type _} (f : α → β) :
    ∀ (l : List α) (a : α), (l.map f).getLastD (f a) = f (l.getLastD a)
  | [], _ => rfl
  | b :: t, a => by
    rw [List.map_cons, List.getLastD_cons, List.getLastD_cons]
    exact map_getLastD f t b

/-- C10: with at least two pixel positions and a nonzero time interval the
velocity computations cannot return `None`, so `create_state_from_vision`
always returns a state whose time is `0.0`, whose wheel velocity is the
supplied `wheel_angular_velocity`, and whose ball position is the polar
conversion of the most recent pixel position. -/
theorem create_state_from_vision_total (ball_positions : List (ℤ × ℤ))
    (wheel_center : ℤ × ℤ) (time_interval wheel_angular_velocity : ℝ)
    (hlen : 2 ≤ ball_positions.length) (_hti : time_interval ≠ 0) :
    ∃ st, create_state_from_vision ball_positions wheel_center time_interval
        wheel_angular_velocity = some st ∧
      st.time = 0 ∧ st.wheel_velocity = wheel_angular_velocity ∧
      st.ball_position =
        pixel_coords_to_polar (ball_positions.getLastD (0, 0)).1
          (ball_positions.getLastD (0, 0)).2 wheel_center := by
  have h2 : ¬ ball_positions.length < 2 := by omega
  have hplen : (ball_positions.map fun p =>
      pixel_coords_to_polar p.1 p.2 wheel_center).length =
      ball_positions.length := List.length_map _ _
  have h2p : ¬ (ball_positions.map fun p =>
      pixel_coords_to_polar p.1 p.2 wheel_center).length < 2 := by omega
  unfold create_state_from_vision
  rw [if_neg h2]
  dsimp only
  rw [calculate_angular_velocity, if_neg h2p,
    calculate_radial_velocity, if_neg h2p]
  refine ⟨_, rfl, by norm_num, rfl, ?_⟩
  dsimp only
  cases ball_positions with
  | nil => simp at hlen
  | cons b t =>
    rw [List.map_cons, List.getLastD_cons, List.getLastD_cons]
    exact map_getLastD (fun p => pixel_coords_to_polar p.1 p.2 wheel_center)
      t b

/-- Witness for C10 at two concrete pixel positions. -/
theorem create_state_from_vision_total_witness :
    ∃ st, create_state_from_vision [((0:ℤ), (0:ℤ)), (1, 0)] (0, 0) 1 5
        = some st ∧
      st.time = 0 ∧ st.wheel_velocity = 5 ∧
      st.ball_position = pixel_coords_to_polar
        (([((0:ℤ), (0:ℤ)), (1, 0)]).getLastD (0, 0)).1
        (([((0:ℤ), (0:ℤ)), (1, 0)]).getLastD (0, 0)).2 (0, 0) :=
  create_state_from_vision_total [(0, 0), (1, 0)] (0, 0) 1 5
    (by decide) one_ne_zero

end RoulettePhysics

namespace RouletteVision

/-- C9: `detect_ball`'s history update is a bounded FIFO: a failed
detection returns `None` and leaves the history unchanged; a successful
detection returns the position, appends it, and removes the oldest entry
exactly when the appended history exceeds 15 entries, so a history at the
cap keeps length 15 and drops its head; the length bound 15 is preserved by
every call and so holds after any sequence of detections starting from the
empty initial history. -/
theorem detect_ball_history_fifo :
    (∀ hist : List (ℤ × ℤ), detectBallUpdate hist none = (none, hist)) ∧
    (∀ (hist : List (ℤ × ℤ)) (p : ℤ × ℤ),
        (detectBallUpdate hist (some p)).1 = some p) ∧
    (∀ (hist : List (ℤ × ℤ)) (p : ℤ × ℤ), hist.length < 15 →
        (detectBallUpdate hist (some p)).2 = hist ++ [p]) ∧
    (∀ (hist : List (ℤ × ℤ)) (p : ℤ × ℤ), hist.length = 15 →
        (detectBallUpdate hist (some p)).2 = hist.tail ++ [p]) ∧
    (∀ (hist : List (ℤ × ℤ)) (p : ℤ × ℤ), hist.length ≤ 15 →
        (detectBallUpdate hist (some p)).2.length ≤ 15) ∧
    (∀ ops : List (Option (ℤ × ℤ)), (runDetections ops).length ≤ 15) := by
  have hstep : ∀ (hist : List (ℤ × ℤ)) (p : ℤ × ℤ), hist.length ≤ 15 →
      (detectBallUpdate hist (some p)).2.length ≤ 15 := by
    intro hist p h
    show (if historyCap < (hist ++ [p]).length then (hist ++ [p]).tail
      else hist ++ [p]).length ≤ 15
    split
    · simp only [List.length_tail, List.length_append, List.length_cons,
        List.length_nil]
      omega
    · next hc =>
      simp only [historyCap, List.length_append, List.length_cons,
        List.length_nil, not_lt] at hc
      simp only [List.length_append, List.length_cons, List.length_nil]
      omega
  refine ⟨fun hist => rfl, fun hist p => rfl, ?_, ?_, hstep, ?_⟩
  · intro hist p h
    show (if historyCap < (hist ++ [p]).length then (hist ++ [p]).tail
      else hist ++ [p]) = hist ++ [p]
    rw [if_neg]
    simp only [historyCap, List.length_append, List.length_cons,
      List.length_nil, not_lt]
    omega
  · intro hist p h
    cases hist with
    | nil => simp at h
    | cons a t =>
      show (if historyCap < ((a :: t) ++ [p]).length
        then ((a :: t) ++ [p]).tail else (a :: t) ++ [p]) = (a :: t).tail ++ [p]
      rw [if_pos]
      · simp
      · simp only [List.length_cons] at h
        simp only [historyCap, List.length_append, List.length_cons,
          List.length_nil]
        omega
  · intro ops
    have key : ∀ (ops : List (Option (ℤ × ℤ))) (h : List (ℤ × ℤ)),
        h.length ≤ 15 →
        (ops.foldl (fun h o => (detectBallUpdate h o).2) h).length ≤ 15 := by
      intro ops
      induction ops with
      | nil => intro h hh; simpa using hh
      | cons o rest ih =>
        intro h hh
        rw [List.foldl_cons]
        apply ih
        cases o with
        | none => simpa using hh
        | some p => exact hstep h p hh
    exact key ops [] (by simp)

/-- Witness for C9: a one-element history under the cap gets the new
position appended. -/
theorem detect_ball_history_fifo_witness :
    ([((1:ℤ), (2:ℤ))] : List (ℤ × ℤ)).length < 15 ∧
    (detectBallUpdate [((1:ℤ), (2:ℤ))] (some (3, 4))).2 =
      [((1:ℤ), (2:ℤ)), (3, 4)] :=
  ⟨by decide, detect_ball_history_fifo.2.2.1 [(1, 2)] (3, 4) (by decide)⟩

end RouletteVision
